import Mathlib

/-!
Verification of the `investing` repository's analytics core against its
natural-language specification.  The Python source (`investing/data.py`) is
shallowly embedded: prices are rationals, dates are naturals (days), Python
strings are lists of characters, and raised exceptions become `Except`
errors tagged by the Python exception class.
-/

set_option maxHeartbeats 1000000

/-- Python exception classes raised by the embedded code.  The spec's error
taxonomy maps onto them: `InvalidPeriodError` and `InvalidMetricNameError`
are `ValueError`, `UnsupportedMetricError` is `NotImplementedError`,
`NoDataAvailableError` is `TickerDataError` (a `RuntimeError` subclass).
Exception messages are not modelled. -/
inductive PyExc where
  | valueError
  | typeError
  | zeroDivisionError
  | tickerDataError
  | notImplementedError
  deriving DecidableEq, Repr

deriving instance DecidableEq for Except

/-- Whether an exception is of Python class `TypeError` (or a subclass).
In CPython, `ValueError` is not a subclass of `TypeError`. -/
def PyExc.isTypeErrorClass : PyExc → Bool
  | .typeError => true
  | _ => false

/-- Python `str.split(sep)` on a single-character separator, written over
`List Char`: accumulator-style scan producing the chunks between
separators (`"".split(sep) == [""]`, `"-".split('-') == ["", ""]`). -/
def pySplitAux (sep : Char) : List Char → List Char → List (List Char)
  | [], acc => [acc.reverse]
  | c :: rest, acc =>
    if c = sep then acc.reverse :: pySplitAux sep rest []
    else pySplitAux sep rest (c :: acc)

/-- Python `s.split(sep)` for one-character `sep`. -/
def pySplit (sep : Char) (s : List Char) : List (List Char) :=
  pySplitAux sep s []

/-- An ASCII decimal digit (`'0'`..`'9'`, the digits CPython's `int()`
accepts among ASCII characters). -/
def isAsciiDigit (c : Char) : Bool :=
  decide (48 ≤ c.toNat ∧ c.toNat ≤ 57)

/-- The ASCII characters CPython's `int()` strips as whitespace
(`Py_UNICODE_ISSPACE` restricted to code points below 128): horizontal
tab through carriage return (9-13), the file/group/record/unit
separators (28-31), and the space (32). -/
def isPySpace (c : Char) : Bool :=
  decide ((9 ≤ c.toNat ∧ c.toNat ≤ 13) ∨ (28 ≤ c.toNat ∧ c.toNat ≤ 31) ∨
    c.toNat = 32)

/-- Surrounding-whitespace stripping performed by CPython `int()`. -/
def stripPySpaces (s : List Char) : List Char :=
  ((s.dropWhile isPySpace).reverse.dropWhile isPySpace).reverse

/-- Digit-group scanner of CPython `int()`: after at least one digit has
been consumed (`prev` is the previous character, `acc` the value so far),
further digits extend the value and a single underscore may separate two
digits; anything else — including a trailing or doubled underscore —
fails. -/
def duAux (acc : ℕ) (prev : Char) : List Char → Option ℕ
  | [] => if prev = '_' then none else some acc
  | c :: rest =>
    if isAsciiDigit c then duAux (10 * acc + (c.toNat - 48)) c rest
    else if c = '_' then
      if isAsciiDigit prev then duAux acc '_' rest else none
    else none

/-- CPython `int()` digit-sequence parsing: the first character must be a
digit, then `duAux` scans the rest. -/
def pyIntCore : List Char → Option ℕ
  | [] => none
  | c :: rest =>
    if isAsciiDigit c then duAux (c.toNat - 48) c rest else none

/-- Python `int(s)` on ASCII strings: strip surrounding whitespace, allow
one optional `'+'` sign, then a digit sequence with single underscores
between digits; `none` models the `ValueError` CPython raises otherwise.
A `'-'` sign is omitted: every string `parse_period` feeds to `int()` is
a piece of a `split('-')`, so it cannot contain `'-'`.  Non-ASCII
numerals and whitespace (Unicode digits etc.) are outside the model;
theorems about failing inputs are stated for ASCII strings only. -/
def pyInt? (s : List Char) : Option ℕ :=
  match stripPySpaces s with
  | [] => none
  | c :: rest => if c = '+' then pyIntCore rest else pyIntCore (c :: rest)

/-- The `keyword_durations` dict of `parse_period` (data.py lines 105-111).
`ytd` is the wall-clock-dependent count of days elapsed since January 1,
passed in as the parameter `ytd`. -/
def keyword_durations (ytd : ℕ) (k : List Char) : Option ℕ :=
  if k = ("day").toList then some 1
  else if k = ("week").toList then some 7
  else if k = ("month").toList then some 30
  else if k = ("quarter").toList then some 91
  else if k = ("year").toList then some 365
  else if k = ("ytd").toList then some ytd
  else none

/-- The unpacking `multiplier, keyword = period.split('-')` of
`parse_period` followed by `int(multiplier)` and the keyword lookup:
any list shape other than two parts raises `ValueError` (tuple-unpacking
error), a non-numeric multiplier raises `ValueError` from `int()`, and an
unknown keyword raises the explicit `ValueError`. -/
def parse_dash (ytd : ℕ) : List (List Char) → Except PyExc ℕ
  | [m, k] =>
    match pyInt? m with
    | none => .error .valueError
    | some mult =>
      match keyword_durations ytd k with
      | none => .error .valueError
      | some d => .ok (mult * d)
  | _ => .error .valueError

/-- The string branch of `parse_period` (data.py lines 103-120): a dash in
the string triggers the split/unpack path, otherwise the whole string is
the keyword and the multiplier is 1. -/
def parse_period_str (ytd : ℕ) (s : List Char) : Except PyExc ℕ :=
  if '-' ∈ s then parse_dash ytd (pySplit '-' s)
  else
    match keyword_durations ytd s with
    | none => .error .valueError
    | some d => .ok (1 * d)

/-- A Python value passed to `parse_period`: an `int`, a `str`, or a value
of any other type (e.g. a float). -/
inductive PyVal where
  | int (n : ℤ)
  | str (s : List Char)
  | other
  deriving DecidableEq

/-- Top level of `parse_period` (data.py lines 101-123): ints pass through,
strings go through the keyword grammar, anything else raises
`ValueError` (the message says "Exepcted type int or str"). -/
def parse_period (ytd : ℕ) : PyVal → Except PyExc ℤ
  | .int n => .ok n
  | .str s => (parse_period_str ytd s).map Int.ofNat
  | .other => .error .valueError

/-- The six recognized period keywords, as character lists. -/
def specKeywords : List (List Char) :=
  [("day").toList, ("week").toList, ("month").toList,
    ("quarter").toList, ("year").toList, ("ytd").toList]

/-- Modelled from the spec's grammar words: a string matches the
`[<multiplier>-]<keyword>` grammar with a recognized keyword when it is
either a bare recognized keyword, or a multiplier accepted by Python
`int()` (see `pyInt?`), a dash, and a recognized keyword.  Used to state
C9's failure condition. -/
def specGrammarParts : List (List Char) → Bool
  | [k] => specKeywords.contains k
  | [m, k] => (pyInt? m).isSome && specKeywords.contains k
  | _ => false

/-- Modelled from the spec's grammar words, applied to the dash-split
pieces of the string. -/
def specPeriodGrammar (s : List Char) : Bool :=
  specGrammarParts (pySplit '-' s)

/-- Decimal numeral of a natural number, as the character list Python's
`str(k)` would produce (most significant digit first). -/
def natChars (k : ℕ) : List Char :=
  (Nat.digits 10 k).reverse.map (fun d => Char.ofNat (48 + d))

/-! ### Lemmas about splitting and digit strings -/

theorem pySplitAux_no_sep {sep : Char} {rest : List Char} (h : sep ∉ rest) :
    ∀ acc, pySplitAux sep rest acc = [acc.reverse ++ rest] := by
  induction rest with
  | nil => intro acc; simp [pySplitAux]
  | cons c cs ih =>
    intro acc
    have hc : c ≠ sep := fun hc => h (hc ▸ List.mem_cons_self c cs)
    have hcs : sep ∉ cs := fun hm => h (List.mem_cons_of_mem c hm)
    simp [pySplitAux, if_neg hc, ih hcs]

theorem pySplitAux_append_sep {sep : Char} {a b : List Char} (ha : sep ∉ a) :
    ∀ acc, pySplitAux sep (a ++ sep :: b) acc =
      (acc.reverse ++ a) :: pySplitAux sep b [] := by
  induction a with
  | nil => intro acc; simp [pySplitAux]
  | cons c cs ih =>
    intro acc
    have hc : c ≠ sep := fun hc => ha (hc ▸ List.mem_cons_self c cs)
    have hcs : sep ∉ cs := fun hm => ha (List.mem_cons_of_mem c hm)
    simp only [List.cons_append, pySplitAux, if_neg hc, List.append_eq]
    rw [ih hcs]
    simp

theorem pySplit_append_sep {sep : Char} {a b : List Char}
    (ha : sep ∉ a) (hb : sep ∉ b) : pySplit sep (a ++ sep :: b) = [a, b] := by
  unfold pySplit
  rw [pySplitAux_append_sep ha, pySplitAux_no_sep hb]
  simp

theorem pySplit_no_sep {sep : Char} {s : List Char} (h : sep ∉ s) :
    pySplit sep s = [s] := by
  unfold pySplit
  rw [pySplitAux_no_sep h]
  simp

theorem pySplitAux_ne_nil (sep : Char) :
    ∀ (r acc : List Char), pySplitAux sep r acc ≠ [] := by
  intro r
  induction r with
  | nil => intro acc; simp [pySplitAux]
  | cons d ds ihr =>
    intro acc
    by_cases hd : d = sep
    · simp [pySplitAux, hd]
    · simp only [pySplitAux, if_neg hd]
      exact ihr _

theorem pySplitAux_length_two {sep : Char} {rest : List Char} (h : sep ∈ rest) :
    ∀ acc, 2 ≤ (pySplitAux sep rest acc).length := by
  induction rest with
  | nil => cases h
  | cons c cs ih =>
    intro acc
    by_cases hc : c = sep
    · subst hc
      have h1 := pySplitAux_ne_nil c cs []
      simp only [pySplitAux, if_pos rfl, List.length_cons]
      cases hrec : pySplitAux c cs [] with
      | nil => exact absurd hrec h1
      | cons x xs => simp
    · have hcs : sep ∈ cs := by
        rcases List.mem_cons.mp h with h1 | h1
        · exact absurd h1.symm hc
        · exact h1
      simp only [pySplitAux, if_neg (fun hcc => hc hcc)]
      exact ih hcs _

theorem digitChar_isDigit {d : ℕ} (hd : d < 10) :
    isAsciiDigit (Char.ofNat (48 + d)) = true := by
  interval_cases d <;> decide

theorem digitChar_ne_dash {d : ℕ} (hd : d < 10) : Char.ofNat (48 + d) ≠ '-' := by
  interval_cases d <;> decide

theorem digitChar_toNat {d : ℕ} (hd : d < 10) :
    (Char.ofNat (48 + d)).toNat - 48 = d := by
  interval_cases d <;> decide

theorem natChars_no_dash (k : ℕ) : '-' ∉ natChars k := by
  intro hmem
  unfold natChars at hmem
  rcases List.mem_map.mp hmem with ⟨d, hd, hchar⟩
  have hdm : d ∈ Nat.digits 10 k := List.mem_reverse.mp hd
  exact digitChar_ne_dash (Nat.digits_lt_base (by norm_num) hdm) hchar

theorem natChars_all_digit (k : ℕ) :
    (natChars k).all isAsciiDigit = true := by
  rw [List.all_eq_true]
  intro c hc
  rcases List.mem_map.mp hc with ⟨d, hd, hchar⟩
  have hdm : d ∈ Nat.digits 10 k := List.mem_reverse.mp hd
  exact hchar ▸ digitChar_isDigit (Nat.digits_lt_base (by norm_num) hdm)

theorem foldl_base10_reverse (l : List ℕ) :
    ∀ a : ℕ, l.reverse.foldl (fun acc d => 10 * acc + d) a =
      a * 10 ^ l.length + Nat.ofDigits 10 l := by
  induction l with
  | nil => intro a; simp [Nat.ofDigits_nil]
  | cons d t ih =>
    intro a
    rw [List.reverse_cons, List.foldl_append, ih]
    simp only [List.foldl_cons, List.foldl_nil, Nat.ofDigits_cons, List.length_cons]
    ring

theorem isAsciiDigit_not_pySpace {c : Char} (h : isAsciiDigit c = true) :
    isPySpace c = false := by
  rw [isAsciiDigit, decide_eq_true_eq] at h
  rw [isPySpace, decide_eq_false_iff_not]
  omega

theorem isAsciiDigit_ne_plus {c : Char} (h : isAsciiDigit c = true) :
    c ≠ '+' := by
  intro he
  rw [he] at h
  exact absurd h (by decide)

theorem isAsciiDigit_ne_underscore {c : Char} (h : isAsciiDigit c = true) :
    c ≠ '_' := by
  intro he
  rw [he] at h
  exact absurd h (by decide)

theorem dropWhile_pySpace_of_all_digits {l : List Char}
    (h : l.all isAsciiDigit = true) : l.dropWhile isPySpace = l := by
  cases l with
  | nil => rfl
  | cons c t =>
    rw [List.all_cons, Bool.and_eq_true] at h
    rw [List.dropWhile_cons_of_neg]
    rw [isAsciiDigit_not_pySpace h.1]
    exact Bool.false_ne_true

theorem stripPySpaces_of_all_digits {l : List Char}
    (h : l.all isAsciiDigit = true) : stripPySpaces l = l := by
  unfold stripPySpaces
  rw [dropWhile_pySpace_of_all_digits h,
    dropWhile_pySpace_of_all_digits (by rw [List.all_reverse]; exact h),
    List.reverse_reverse]

theorem duAux_digits :
    ∀ (rest : List Char), rest.all isAsciiDigit = true →
      ∀ (acc : ℕ) (prev : Char), isAsciiDigit prev = true →
        duAux acc prev rest =
          some (rest.foldl (fun a c => 10 * a + (c.toNat - 48)) acc) := by
  intro rest
  induction rest with
  | nil =>
    intro _ acc prev hprev
    unfold duAux
    rw [if_neg (isAsciiDigit_ne_underscore hprev)]
    rfl
  | cons c r ih =>
    intro hall acc prev _
    rw [List.all_cons, Bool.and_eq_true] at hall
    unfold duAux
    rw [if_pos hall.1, ih hall.2 _ c hall.1, List.foldl_cons]

theorem pyInt?_of_digits {l : List Char} (hne : l ≠ [])
    (hall : l.all isAsciiDigit = true) :
    pyInt? l = some (l.foldl (fun a c => 10 * a + (c.toNat - 48)) 0) := by
  unfold pyInt?
  rw [stripPySpaces_of_all_digits hall]
  cases l with
  | nil => exact absurd rfl hne
  | cons c cs =>
    rw [List.all_cons, Bool.and_eq_true] at hall
    rw [show (match c :: cs with
        | [] => (none : Option ℕ)
        | c :: rest => if c = '+' then pyIntCore rest else pyIntCore (c :: rest)) =
      if c = '+' then pyIntCore cs else pyIntCore (c :: cs) from rfl]
    rw [if_neg (isAsciiDigit_ne_plus hall.1)]
    rw [show pyIntCore (c :: cs) =
      (if isAsciiDigit c then duAux (c.toNat - 48) c cs else none) from rfl]
    rw [if_pos hall.1, duAux_digits cs hall.2 _ c hall.1, List.foldl_cons]
    congr 2
    omega

theorem pyInt?_natChars {k : ℕ} (hk : k ≠ 0) : pyInt? (natChars k) = some k := by
  have hdig : Nat.digits 10 k ≠ [] := Nat.digits_ne_nil_iff_ne_zero.mpr hk
  have hne : natChars k ≠ [] := by
    unfold natChars
    simpa using hdig
  rw [pyInt?_of_digits hne (natChars_all_digit k)]
  congr 1
  unfold natChars
  rw [List.foldl_map]
  have hcong : (Nat.digits 10 k).reverse.foldl
      (fun acc d => 10 * acc + ((Char.ofNat (48 + d)).toNat - 48)) 0 =
      (Nat.digits 10 k).reverse.foldl (fun acc d => 10 * acc + d) 0 := by
    apply List.foldl_ext
    intro a d hd
    have hdm : d ∈ Nat.digits 10 k := List.mem_reverse.mp hd
    rw [digitChar_toNat (Nat.digits_lt_base (by norm_num) hdm)]
  rw [hcong, foldl_base10_reverse, Nat.ofDigits_digits]
  simp

theorem keyword_durations_mem_of_ne_none {ytd : ℕ} {k : List Char}
    (h : keyword_durations ytd k ≠ none) :
    k = ("day").toList ∨ k = ("week").toList ∨ k = ("month").toList ∨
    k = ("quarter").toList ∨ k = ("year").toList ∨ k = ("ytd").toList := by
  unfold keyword_durations at h
  split_ifs at h with h1 h2 h3 h4 h5 h6
  · exact Or.inl h1
  · exact Or.inr (Or.inl h2)
  · exact Or.inr (Or.inr (Or.inl h3))
  · exact Or.inr (Or.inr (Or.inr (Or.inl h4)))
  · exact Or.inr (Or.inr (Or.inr (Or.inr (Or.inl h5))))
  · exact Or.inr (Or.inr (Or.inr (Or.inr (Or.inr h6))))
  · exact absurd rfl h

/-- C8, corrected part: `parse_period("yearly")` raises `ValueError`
(`InvalidPeriodError`), because the keyword table contains `year`, not
`yearly`; in particular it does not return 365 as the claim states. -/
theorem parse_period_yearly_cex :
    parse_period_str 280 (("yearly").toList) = .error .valueError ∧
    parse_period_str 280 (("yearly").toList) ≠ .ok 365 := by
  constructor <;> decide

/-- C8 (amended): for every positive integer `k` the period parser maps the
string `"<k>-day"` to exactly `k` days, and it maps the string `"year"`
(not `"yearly"`, which raises `InvalidPeriodError`) to 365, regardless of
the wall-clock-dependent `ytd` value. -/
theorem parse_period_kday_and_year (ytd k : ℕ) (hk : 0 < k) :
    parse_period_str ytd (natChars k ++ '-' :: ("day").toList) = .ok k ∧
    parse_period_str ytd (("year").toList) = .ok 365 := by
  refine ⟨?_, rfl⟩
  have hmem : '-' ∈ natChars k ++ '-' :: ("day").toList := by simp
  unfold parse_period_str
  rw [if_pos hmem, pySplit_append_sep (natChars_no_dash k) (by decide)]
  simp [parse_dash, pyInt?_natChars (Nat.pos_iff_ne_zero.mp hk), keyword_durations]

/-- Witness for `parse_period_kday_and_year` at `ytd = 7`, `k = 12`. -/
theorem parse_period_kday_and_year_witness :
    0 < 12 ∧
    parse_period_str 7 (natChars 12 ++ '-' :: ("day").toList) = .ok 12 ∧
    parse_period_str 7 (("year").toList) = .ok 365 :=
  ⟨by decide, (parse_period_kday_and_year 7 12 (by decide)).1,
    (parse_period_kday_and_year 7 12 (by decide)).2⟩

/-- C9, corrected part: for an input that is neither an int nor a string,
`parse_period` raises `ValueError` — which is not a `TypeError`-class
exception, contrary to the claim. -/
theorem parse_period_other_cex :
    parse_period 0 .other = .error .valueError ∧
    PyExc.isTypeErrorClass .valueError = false :=
  ⟨rfl, rfl⟩

/-- C9 (amended): every ASCII string that fails the
`[<multiplier>-]<keyword>` grammar — where the multiplier is any numeral
accepted by Python `int()`: surrounding whitespace, an optional `'+'`,
single underscores between digits — or has an unrecognized keyword makes
`parse_period` raise `ValueError` (`InvalidPeriodError`); an input of any
other type than int or str also raises `ValueError` — the same exception
class, not a `TypeError`-class error.  (Non-ASCII strings can carry
Unicode numerals that `int()` accepts and are outside the model's
scope.) -/
theorem parse_period_error_classes (ytd : ℕ) (s : List Char)
    (hascii : s.all (fun c => c.toNat < 128) = true)
    (h : specPeriodGrammar s = false) :
    parse_period ytd (.str s) = .error .valueError ∧
    parse_period ytd .other = .error .valueError ∧
    PyExc.isTypeErrorClass .valueError = false := by
  refine ⟨?_, rfl, rfl⟩
  have key : parse_period_str ytd s = .error .valueError := by
    by_cases hmem : '-' ∈ s
    · have hlen : 2 ≤ (pySplit '-' s).length := pySplitAux_length_two hmem []
      unfold parse_period_str
      rw [if_pos hmem]
      unfold specPeriodGrammar at h
      cases hsp : pySplit '-' s with
      | nil => rw [hsp] at hlen; simp at hlen
      | cons m rest =>
        cases rest with
        | nil => rw [hsp] at hlen; simp at hlen
        | cons k2 rest2 =>
          cases rest2 with
          | nil =>
            rw [hsp] at h
            cases hint : pyInt? m with
            | none => simp [parse_dash, hint]
            | some mult =>
              cases hkw : keyword_durations ytd k2 with
              | none => simp [parse_dash, hint, hkw]
              | some d =>
                exfalso
                have hmemk := @keyword_durations_mem_of_ne_none ytd k2 (by rw [hkw]; exact fun hx => by cases hx)
                have hcont : specKeywords.contains k2 = true := by
                  rcases hmemk with h1 | h1 | h1 | h1 | h1 | h1 <;> subst h1 <;> decide
                simp [specGrammarParts, hint] at h
                exact h (by simpa using hcont)
          | cons x xs => simp [parse_dash]
    · unfold parse_period_str
      rw [if_neg hmem]
      unfold specPeriodGrammar at h
      rw [pySplit_no_sep hmem] at h
      cases hkw : keyword_durations ytd s with
      | none => rfl
      | some d =>
        exfalso
        have hmemk := @keyword_durations_mem_of_ne_none ytd s (by rw [hkw]; exact fun hx => by cases hx)
        have hcont : specKeywords.contains s = true := by
          rcases hmemk with h1 | h1 | h1 | h1 | h1 | h1 <;> subst h1 <;> decide
        simp [specGrammarParts] at h
        exact h (by simpa using hcont)
  show (parse_period_str ytd s).map Int.ofNat = .error .valueError
  rw [key]
  rfl

/-- Witness for `parse_period_error_classes` at `ytd = 3`,
`s = "banana"`. -/
theorem parse_period_error_classes_witness :
    (("banana").toList).all (fun c => c.toNat < 128) = true ∧
    specPeriodGrammar (("banana").toList) = false ∧
    parse_period 3 (.str (("banana").toList)) = .error .valueError ∧
    parse_period 3 .other = .error .valueError ∧
    PyExc.isTypeErrorClass .valueError = false := by
  have h := parse_period_error_classes 3 (("banana").toList) (by decide) (by decide)
  exact ⟨by decide, by decide, h.1, h.2.1, h.2.2⟩

/-! ### Rolling returns (`Ticker._rolling`) -/

/-- Pandas `Series.pct_change(days)` over the ascending price list: entry
`i` is `NaN` (here `none`) for `i < days` and
`(price[i] - price[i-days]) / price[i-days]` otherwise.  All accesses are
in range, so the `getD` default is never consulted. -/
def pct_change (prices : List ℚ) (days : ℕ) : List (Option ℚ) :=
  (List.range prices.length).map fun i =>
    if i < days then none
    else some ((prices.getD i 0 - prices.getD (i - days) 0) / prices.getD (i - days) 0)

/-- Pandas `.dropna()` on an option-valued series. -/
def dropna (l : List (Option ℚ)) : List ℚ := l.filterMap id

/-- Pandas `Series.mean()`: `NaN` (here `none`) on an empty series. -/
def listMean (l : List ℚ) : Option ℚ :=
  if l = [] then none else some (l.sum / l.length)

/-- Return value of `Ticker._rolling`: either the mean or the full
distribution of rolling returns, per the `average` flag. -/
inductive RollingResult where
  | mean (q : Option ℚ)
  | dist (l : List ℚ)
  deriving DecidableEq

/-- `Ticker._rolling` (data.py lines 360-378) on the ascending price
series: parse the period, compute `self.data.price.pct_change(days)
.dropna()`, then return its mean or the whole series.  An unparseable
period propagates `parse_period`'s exception. -/
def Ticker_rolling (prices : List ℚ) (ytd : ℕ) (period : List Char)
    (average : Bool) : Except PyExc RollingResult :=
  match parse_period_str ytd period with
  | .error e => .error e
  | .ok days =>
    if average then .ok (.mean (listMean (dropna (pct_change prices days))))
    else .ok (.dist (dropna (pct_change prices days)))

theorem dropna_pct_change (prices : List ℚ) (days : ℕ) :
    dropna (pct_change prices days) =
      (List.range (prices.length - days)).map fun i =>
        (prices.getD (i + days) 0 - prices.getD i 0) / prices.getD i 0 := by
  unfold pct_change dropna
  rw [List.filterMap_map]
  simp only [Function.id_comp]
  by_cases hle : days ≤ prices.length
  · have hsplit : prices.length = days + (prices.length - days) := by omega
    conv_lhs => rw [hsplit, List.range_add]
    rw [List.filterMap_append]
    have h1 : (List.range days).filterMap (fun i =>
        if i < days then none
        else some ((prices.getD i 0 - prices.getD (i - days) 0) / prices.getD (i - days) 0)) = [] := by
      rw [List.filterMap_eq_nil_iff]
      intro i hi
      rw [if_pos (List.mem_range.mp hi)]
    rw [h1, List.nil_append, List.filterMap_map]
    have h2 : ((fun i =>
        if i < days then none
        else some ((prices.getD i 0 - prices.getD (i - days) 0) / prices.getD (i - days) 0)) ∘
          (fun j => days + j)) =
        fun j => some ((prices.getD (j + days) 0 - prices.getD j 0) / prices.getD j 0) := by
      funext j
      have hnt : ¬ (j + days < days) := by omega
      simp only [Function.comp_apply, Nat.add_comm days j, if_neg hnt,
        Nat.add_sub_cancel]
    rw [h2]
    rw [show (fun j => some ((prices.getD (j + days) 0 - prices.getD j 0) / prices.getD j 0)) =
      some ∘ (fun j => (prices.getD (j + days) 0 - prices.getD j 0) / prices.getD j 0) from rfl]
    rw [List.filterMap_eq_map]
  · have hz : prices.length - days = 0 := by omega
    rw [hz]
    simp only [List.range_zero, List.map_nil]
    rw [List.filterMap_eq_nil_iff]
    intro i hi
    rw [if_pos (by have := List.mem_range.mp hi; omega)]

/-- C1: on an ascending price series, the metric `rolling/<period>` with
`average=false` returns exactly the distribution
`(price[i+n] - price[i]) / price[i]` over every valid window start `i` in
ascending order, where `n` is the day count parsed from the period; a
series with fewer than `n+1` points yields the empty distribution without
raising. -/
theorem rolling_distribution (prices : List ℚ) (ytd : ℕ) (period : List Char)
    (days : ℕ) (hp : parse_period_str ytd period = .ok days) :
    Ticker_rolling prices ytd period false =
      .ok (.dist ((List.range (prices.length - days)).map fun i =>
        (prices.getD (i + days) 0 - prices.getD i 0) / prices.getD i 0)) ∧
    (prices.length < days + 1 →
      Ticker_rolling prices ytd period false = .ok (.dist [])) := by
  have hmain : Ticker_rolling prices ytd period false =
      .ok (.dist ((List.range (prices.length - days)).map fun i =>
        (prices.getD (i + days) 0 - prices.getD i 0) / prices.getD i 0)) := by
    unfold Ticker_rolling
    rw [hp]
    simp only [if_neg (Bool.false_ne_true)]
    rw [dropna_pct_change]
  refine ⟨hmain, fun hshort => ?_⟩
  rw [hmain]
  have : prices.length - days = 0 := by omega
  rw [this]
  rfl

/-- Witness for `rolling_distribution`: prices `[1, 2, 4]` with period
`"2-day"` give the single rolling return `(4 - 1) / 1 = 3`. -/
theorem rolling_distribution_witness :
    Ticker_rolling [1, 2, 4] 0 (("2-day").toList) false = .ok (.dist [3]) := by
  have h := (rolling_distribution [1, 2, 4] 0 (("2-day").toList) 2 (by decide)).1
  rw [h]
  norm_num [List.range_succ]

/-! ### Price-series merge (`Ticker.refresh`) -/

/-- A price-series row: (date, price), dates as abstract day numbers. -/
abbrev SeriesRow : Type := ℕ × ℚ

/-- Pandas `combined[~combined.index.duplicated()]` with the default
`keep='first'`: keep each row whose date has not appeared earlier.
`seen` is the set of dates already encountered. -/
def dropDuplicateDates (seen : List ℕ) : List SeriesRow → List SeriesRow
  | [] => []
  | r :: rest =>
    if r.1 ∈ seen then dropDuplicateDates seen rest
    else r :: dropDuplicateDates (r.1 :: seen) rest

/-- Date-wise non-strict order on rows, the key order of `sort_index`. -/
def dateLE (a b : SeriesRow) : Prop := a.1 ≤ b.1

/-- Date-wise strict order on rows. -/
def dateLT (a b : SeriesRow) : Prop := a.1 < b.1

instance : DecidableRel dateLE := fun a b => Nat.decLe a.1 b.1

instance : IsTotal SeriesRow dateLE := ⟨fun a b => Nat.le_total a.1 b.1⟩

instance : IsTrans SeriesRow dateLE := ⟨fun _ _ _ h1 h2 => Nat.le_trans h1 h2⟩

/-- No two rows share a date. -/
def NodupDates (l : List SeriesRow) : Prop :=
  l.Pairwise fun a b => a.1 ≠ b.1

/-- The merge step of `Ticker.refresh` (data.py lines 520-527):
`pd.concat([new, existing])` places the incoming rows first,
`combined[~combined.index.duplicated()]` keeps the first row per date (so
the incoming value wins on shared dates), and `_sort_dates` re-sorts
ascending by date (the sort key is the date and surviving dates are
unique, so the sorting algorithm's tie behavior is immaterial). -/
def merge (existing incoming : List SeriesRow) : List SeriesRow :=
  List.insertionSort dateLE (dropDuplicateDates [] (incoming ++ existing))

/-- Price recorded for a date: the first matching row (rows surviving the
duplicate drop have unique dates). -/
def lookupDate (d : ℕ) : List SeriesRow → Option ℚ
  | [] => none
  | r :: rest => if r.1 = d then some r.2 else lookupDate d rest

theorem lookupDate_append (d : ℕ) (l1 l2 : List SeriesRow) :
    lookupDate d (l1 ++ l2) = (lookupDate d l1).or (lookupDate d l2) := by
  induction l1 with
  | nil => simp [lookupDate]
  | cons r rest ih =>
    by_cases hr : r.1 = d
    · simp [lookupDate, hr]
    · simp only [List.cons_append, lookupDate, if_neg hr, List.append_eq, ih]

theorem lookupDate_dropDuplicateDates (d : ℕ) :
    ∀ (l : List SeriesRow) (seen : List ℕ),
      lookupDate d (dropDuplicateDates seen l) =
        if d ∈ seen then none else lookupDate d l := by
  intro l
  induction l with
  | nil => intro seen; simp [dropDuplicateDates, lookupDate]
  | cons r rest ih =>
    intro seen
    by_cases hseen : r.1 ∈ seen
    · rw [dropDuplicateDates, if_pos hseen, ih]
      by_cases hd : d ∈ seen
      · rw [if_pos hd, if_pos hd]
      · rw [if_neg hd, if_neg hd, lookupDate]
        have hrd : r.1 ≠ d := fun he => hd (he ▸ hseen)
        rw [if_neg hrd]
    · rw [dropDuplicateDates, if_neg hseen]
      by_cases hrd : r.1 = d
      · subst hrd
        have hd : r.1 ∉ seen := hseen
        rw [if_neg hd, lookupDate, if_pos rfl, lookupDate, if_pos rfl]
      · rw [lookupDate, if_neg hrd, ih]
        by_cases hd : d ∈ seen
        · rw [if_pos hd, if_pos (List.mem_cons_of_mem _ hd)]
        · have hd2 : d ∉ r.1 :: seen := by
            intro hmem
            rcases List.mem_cons.mp hmem with he | he
            · exact hrd he.symm
            · exact hd he
          rw [if_neg hd, if_neg hd2, lookupDate, if_neg hrd]

theorem dropDuplicateDates_nodup :
    ∀ (l : List SeriesRow) (seen : List ℕ),
      NodupDates (dropDuplicateDates seen l) ∧
      ∀ r ∈ dropDuplicateDates seen l, r.1 ∉ seen := by
  intro l
  induction l with
  | nil => intro seen; exact ⟨List.Pairwise.nil, by intro r hr; cases hr⟩
  | cons r rest ih =>
    intro seen
    by_cases hseen : r.1 ∈ seen
    · rw [dropDuplicateDates, if_pos hseen]
      exact ih seen
    · rw [dropDuplicateDates, if_neg hseen]
      obtain ⟨ihnd, ihseen⟩ := ih (r.1 :: seen)
      refine ⟨List.Pairwise.cons ?_ ihnd, ?_⟩
      · intro b hb
        have := ihseen b hb
        exact fun he => this (he ▸ List.mem_cons_self _ _)
      · intro b hb
        rcases List.mem_cons.mp hb with he | he
        · exact he ▸ hseen
        · exact fun hmem => ihseen b he (List.mem_cons_of_mem _ hmem)

theorem nodupDates_perm {l l' : List SeriesRow} (p : l.Perm l')
    (nd : NodupDates l) : NodupDates l' :=
  (List.Perm.pairwise_iff (fun h => Ne.symm h) p).mp nd

theorem lookupDate_perm {l l' : List SeriesRow} (p : l.Perm l')
    (nd : NodupDates l) (d : ℕ) : lookupDate d l = lookupDate d l' := by
  induction p with
  | nil => rfl
  | cons x p ih =>
    rw [lookupDate, lookupDate]
    by_cases hx : x.1 = d
    · rw [if_pos hx, if_pos hx]
    · rw [if_neg hx, if_neg hx]
      exact ih (List.Pairwise.of_cons nd)
  | swap x y l =>
    rw [lookupDate, lookupDate, lookupDate, lookupDate]
    by_cases hy : y.1 = d
    · have hx : x.1 ≠ d := by
        intro hxd
        have := List.rel_of_pairwise_cons nd (List.mem_cons_self x l)
        exact this (hy.trans hxd.symm)
      rw [if_pos hy, if_neg hx, if_pos hy]
    · by_cases hx : x.1 = d
      · rw [if_neg hy, if_pos hx, if_pos hx]
      · rw [if_neg hy, if_neg hx, if_neg hx, if_neg hy]
  | trans p1 p2 ih1 ih2 =>
    exact (ih1 nd).trans (ih2 (nodupDates_perm p1 nd))

theorem merge_nodupDates (existing incoming : List SeriesRow) :
    NodupDates (merge existing incoming) :=
  nodupDates_perm (List.perm_insertionSort dateLE _).symm
    (dropDuplicateDates_nodup (incoming ++ existing) []).1

theorem merge_sorted (existing incoming : List SeriesRow) :
    List.Sorted dateLE (merge existing incoming) :=
  List.sorted_insertionSort dateLE _

theorem merge_pairwise_lt (existing incoming : List SeriesRow) :
    (merge existing incoming).Pairwise dateLT := by
  have h1 : (merge existing incoming).Pairwise dateLE :=
    merge_sorted existing incoming
  have h2 := merge_nodupDates existing incoming
  exact (h1.and h2).imp fun hab => lt_of_le_of_ne hab.1 hab.2

theorem lookupDate_merge (existing incoming : List SeriesRow) (d : ℕ) :
    lookupDate d (merge existing incoming) =
      (lookupDate d incoming).or (lookupDate d existing) := by
  have hnd := (dropDuplicateDates_nodup (incoming ++ existing) []).1
  have hperm := List.perm_insertionSort dateLE
    (dropDuplicateDates [] (incoming ++ existing))
  have h1 : lookupDate d (merge existing incoming) =
      lookupDate d (dropDuplicateDates [] (incoming ++ existing)) :=
    lookupDate_perm hperm (nodupDates_perm hperm.symm hnd) d
  rw [h1, lookupDate_dropDuplicateDates]
  simp only [List.not_mem_nil, if_false, if_neg (fun h => h)]
  exact lookupDate_append d incoming existing

theorem lookupDate_some_mem {d : ℕ} {v : ℚ} :
    ∀ {l : List SeriesRow}, lookupDate d l = some v →
      ∃ row, row ∈ l ∧ row.1 = d := by
  intro l
  induction l with
  | nil => intro h; cases h
  | cons r rest ih =>
    intro h
    rw [lookupDate] at h
    by_cases hr : r.1 = d
    · exact ⟨r, List.mem_cons_self r rest, hr⟩
    · rw [if_neg hr] at h
      obtain ⟨row, hrow, hk⟩ := ih h
      exact ⟨row, List.mem_cons_of_mem r hrow, hk⟩

theorem lookupDate_none_of_forall {d : ℕ} :
    ∀ {l : List SeriesRow}, (∀ row ∈ l, row.1 ≠ d) → lookupDate d l = none := by
  intro l
  induction l with
  | nil => intro _; rfl
  | cons r rest ih =>
    intro h
    rw [lookupDate, if_neg (h r (List.mem_cons_self r rest))]
    exact ih fun row hrow => h row (List.mem_cons_of_mem r hrow)

theorem eq_of_pairwise_lt_lookup :
    ∀ (l l' : List SeriesRow), l.Pairwise dateLT → l'.Pairwise dateLT →
      (∀ d, lookupDate d l = lookupDate d l') → l = l' := by
  intro l
  induction l with
  | nil =>
    intro l' _ _ hl
    cases l' with
    | nil => rfl
    | cons r' t' =>
      have := hl r'.1
      rw [lookupDate, lookupDate, if_pos rfl] at this
      exact absurd this (by simp)
  | cons r t ih =>
    intro l' h1 h2 hl
    cases l' with
    | nil =>
      have := hl r.1
      rw [lookupDate, lookupDate, if_pos rfl] at this
      exact absurd this (by simp)
    | cons r' t' =>
      have hkey : r.1 = r'.1 := by
        by_contra hne
        have ha := hl r.1
        rw [lookupDate, if_pos rfl, lookupDate,
          if_neg (fun he => hne he.symm)] at ha
        have hb := hl r'.1
        rw [lookupDate, if_neg hne, lookupDate, if_pos rfl] at hb
        obtain ⟨row, hrow, hrowkey⟩ := lookupDate_some_mem ha.symm
        obtain ⟨row', hrow', hrowkey'⟩ := lookupDate_some_mem hb
        have hlt1 : dateLT r' row := List.rel_of_pairwise_cons h2 hrow
        have hlt2 : dateLT r row' := List.rel_of_pairwise_cons h1 hrow'
        unfold dateLT at hlt1 hlt2
        omega
      have hval : r.2 = r'.2 := by
        have ha := hl r.1
        rw [lookupDate, if_pos rfl, lookupDate, if_pos hkey.symm] at ha
        exact Option.some.inj ha
      have hhead : r = r' := Prod.ext hkey hval
      have htail : ∀ d, lookupDate d t = lookupDate d t' := by
        intro d
        by_cases hd : r.1 = d
        · have hn1 : lookupDate d t = none :=
            lookupDate_none_of_forall fun row hrow => by
              have := List.rel_of_pairwise_cons h1 hrow
              unfold dateLT at this
              omega
          have hn2 : lookupDate d t' = none :=
            lookupDate_none_of_forall fun row hrow => by
              have := List.rel_of_pairwise_cons h2 hrow
              unfold dateLT at this
              omega
          rw [hn1, hn2]
        · have := hl d
          rw [lookupDate, if_neg hd, lookupDate, if_neg (hkey ▸ hd)] at this
          exact this
      rw [hhead, ih t' (List.Pairwise.of_cons h1) (List.Pairwise.of_cons h2) htail]

/-- C2: the merge performed by `Ticker.refresh` is the union of both
series keyed by date; on a date present in both, the incoming value wins;
the result is sorted ascending by date with at most one row per date. -/
theorem merge_spec (existing incoming : List SeriesRow) :
    (∀ d, lookupDate d (merge existing incoming) =
      (lookupDate d incoming).or (lookupDate d existing)) ∧
    List.Sorted dateLE (merge existing incoming) ∧
    NodupDates (merge existing incoming) :=
  ⟨lookupDate_merge existing incoming, merge_sorted existing incoming,
    merge_nodupDates existing incoming⟩

/-- C3: merging the same incoming series a second time changes nothing. -/
theorem merge_idempotent (existing incoming : List SeriesRow) :
    merge (merge existing incoming) incoming = merge existing incoming := by
  apply eq_of_pairwise_lt_lookup _ _ (merge_pairwise_lt _ _) (merge_pairwise_lt _ _)
  intro d
  simp only [lookupDate_merge]
  cases lookupDate d incoming <;> simp [Option.or]

/-! ### Market-day resolution (`market_day`) -/

/-- Direction argument of `market_day`. -/
inductive Direction where
  | previous
  | latest
  | next
  deriving DecidableEq

/-- Python list indexing with negative-index wraparound: `l[i]` is
`l[i]` for `0 ≤ i < len(l)`, `l[len(l)+i]` for `-len(l) ≤ i < 0`, and an
`IndexError` (here `none`) otherwise. -/
def pyGet (l : List ℕ) (i : ℤ) : Option ℕ :=
  if 0 ≤ i then l.get? i.toNat
  else if -(l.length : ℤ) ≤ i then l.get? (i + l.length).toNat
  else none

/-- The `diffs[diffs <= timedelta(days=0)].idxmax()` step of `market_day`
(data.py lines 69-70): among positions whose calendar day is on or before
the reference day, the index of the maximal day (first occurrence on
ties, per pandas `idxmax`); `none` when no day qualifies (pandas yields
`NaN` and the subsequent indexing fails). -/
def idxmaxLe (recent : List ℕ) (ref : ℕ) : Option ℕ :=
  (((List.range recent.length).zip recent).filter (fun p => p.2 ≤ ref)).foldl
    (fun acc p =>
      match acc with
      | none => some p
      | some b => if b.2 < p.2 then some p else some b) none
    |>.map (fun p => p.1)

/-- Anchor index of `market_day` after the market-close adjustment
(data.py lines 72-77): the wall-clock comparison `closing_time.date() ==
now.date() and closing_time > now` is abstracted into the boolean
`stillOpen`; when true the index steps back one. -/
def anchorIndex (recent : List ℕ) (ref : ℕ) (stillOpen : Bool) : Option ℤ :=
  (idxmaxLe recent ref).map
    (fun i0 => (i0 : ℤ) - (if stillOpen then 1 else 0))

/-- `market_day` (data.py lines 42-85) over the window's valid trading
days `recent` (ascending, as `nyse.valid_days` returns them) and a
reference day `ref`: an empty window raises `RuntimeError`, a reference
before every valid day fails at the `NaN` index, and otherwise the anchor
index is shifted by the direction and used to index `recent` with Python
semantics (negative indices wrap around). -/
def market_day (recent : List ℕ) (ref : ℕ) (stillOpen : Bool)
    (direction : Direction) : Option ℕ :=
  if recent.length = 0 then none
  else
    match anchorIndex recent ref stillOpen with
    | none => none
    | some j =>
      pyGet recent (j + match direction with
        | .previous => -1
        | .latest => 0
        | .next => 1)

/-- C4, corrected part: with window `[10, 11]` and reference day 10
(e.g. `search_days=1` around a Monday), all three directions succeed, yet
`direction='previous'` wraps around via Python index `-1` and returns day
11 — one trading day *later* than `latest`, not earlier. -/
theorem market_day_previous_cex :
    market_day [10, 11] 10 false .previous = some 11 ∧
    market_day [10, 11] 10 false .latest = some 10 ∧
    market_day [10, 11] 10 false .next = some 11 ∧
    ¬ (11 < 10) := by
  refine ⟨?_, ?_, ?_, by omega⟩ <;> decide

/-- C4 (amended): when the anchor index `j` has a trading day on both
sides within the window (`1 ≤ j` and `j + 1 < len`, so no Python
negative-index wraparound occurs), `previous`/`latest`/`next` return the
window's trading days at indices `j-1`, `j`, `j+1`: `previous` is exactly
one trading day earlier and `next` exactly one trading day later than
`latest`, all valid trading days of the window.  (At `j = 0`, `previous`
wraps around to the last day of the window instead of failing.) -/
theorem market_day_directions (recent : List ℕ) (ref : ℕ) (stillOpen : Bool)
    (j : ℤ) (hsort : recent.Pairwise (fun a b => a < b))
    (hanchor : anchorIndex recent ref stillOpen = some j)
    (hj1 : 1 ≤ j) (hj2 : j + 1 < (recent.length : ℤ)) :
    market_day recent ref stillOpen .previous = recent.get? (j - 1).toNat ∧
    market_day recent ref stillOpen .latest = recent.get? j.toNat ∧
    market_day recent ref stillOpen .next = recent.get? (j + 1).toNat ∧
    ∃ p l n, recent.get? (j - 1).toNat = some p ∧
      recent.get? j.toNat = some l ∧ recent.get? (j + 1).toNat = some n ∧
      p < l ∧ l < n := by
  have hlen0 : ¬ recent.length = 0 := by omega
  have e1 : market_day recent ref stillOpen .previous =
      recent.get? (j - 1).toNat := by
    unfold market_day
    rw [if_neg hlen0, hanchor]
    show pyGet recent (j + -1) = _
    unfold pyGet
    rw [if_pos (by omega)]
    congr 1
  have e2 : market_day recent ref stillOpen .latest =
      recent.get? j.toNat := by
    unfold market_day
    rw [if_neg hlen0, hanchor]
    show pyGet recent (j + 0) = _
    unfold pyGet
    rw [if_pos (by omega)]
    congr 1
    omega
  have e3 : market_day recent ref stillOpen .next =
      recent.get? (j + 1).toNat := by
    unfold market_day
    rw [if_neg hlen0, hanchor]
    show pyGet recent (j + 1) = _
    unfold pyGet
    rw [if_pos (by omega)]
  obtain ⟨jn, rfl⟩ : ∃ jn : ℕ, j = (jn : ℤ) :=
    ⟨j.toNat, (Int.toNat_of_nonneg (by omega)).symm⟩
  have hjn1 : 1 ≤ jn := by exact_mod_cast hj1
  have hjn2 : jn + 1 < recent.length := by exact_mod_cast hj2
  have t1 : ((jn : ℤ) - 1).toNat = jn - 1 := by omega
  have t2 : ((jn : ℤ)).toNat = jn := by omega
  have t3 : ((jn : ℤ) + 1).toNat = jn + 1 := by omega
  have hn1 : jn - 1 < recent.length := by omega
  have hn2 : jn < recent.length := by omega
  have hn3 : jn + 1 < recent.length := by omega
  refine ⟨e1, e2, e3, recent.get ⟨jn - 1, hn1⟩, recent.get ⟨jn, hn2⟩,
    recent.get ⟨jn + 1, hn3⟩, ?_, ?_, ?_, ?_, ?_⟩
  · rw [t1]; exact List.get?_eq_get hn1
  · rw [t2]; exact List.get?_eq_get hn2
  · rw [t3]; exact List.get?_eq_get hn3
  · exact List.pairwise_iff_get.mp hsort ⟨jn - 1, hn1⟩ ⟨jn, hn2⟩
      (Fin.mk_lt_mk.mpr (by omega))
  · exact List.pairwise_iff_get.mp hsort ⟨jn, hn2⟩ ⟨jn + 1, hn3⟩
      (Fin.mk_lt_mk.mpr (by omega))

/-- Witness for `market_day_directions`: window `[5, 10, 11, 12, 20]`,
reference day 11, anchor index 2; previous/latest/next are 10, 11, 12. -/
theorem market_day_directions_witness :
    market_day [5, 10, 11, 12, 20] 11 false .previous = some 10 ∧
    market_day [5, 10, 11, 12, 20] 11 false .latest = some 11 ∧
    market_day [5, 10, 11, 12, 20] 11 false .next = some 12 ∧
    (10 : ℕ) < 11 ∧ (11 : ℕ) < 12 := by
  have h := market_day_directions [5, 10, 11, 12, 20] 11 false 2
    (by decide) (by decide) (by decide) (by decide)
  refine ⟨?_, ?_, ?_, by omega, by omega⟩
  · rw [h.1]; decide
  · rw [h.2.1]; decide
  · rw [h.2.2.1]; decide

/-! ### Portfolio composition (`Portfolio`) -/

/-- An instrument as loaded by `Ticker.__init__`: canonical uppercase
symbol, and for funds the holdings-table rows (symbol, pct) in file
order. -/
structure Instrument where
  symbol : String
  holdings : Option (List (String × ℚ))
  deriving DecidableEq

/-- One contribution record of `Portfolio.company_positions`. -/
structure PosRec where
  source : String
  source_weight : ℚ
  portfolio_weight : ℚ
  deriving DecidableEq

/-- `Portfolio.company_positions` (data.py lines 188-203), flattened:
for each (ticker, weight) pair a plain company contributes one record
under its own symbol with `source_weight = 1`, while a fund contributes
one record per holdings row under the row's symbol with
`portfolio_weight = pct * weight`.  The `defaultdict` grouping by company
key is recovered by filtering this flat list on the key. -/
def company_positions (pf : List (Instrument × ℚ)) : List (String × PosRec) :=
  pf.flatMap fun iw =>
    match iw.1.holdings with
    | none => [(iw.1.symbol, ⟨iw.1.symbol, 1, iw.2⟩)]
    | some rows => rows.map fun r => (r.1, ⟨iw.1.symbol, r.2, r.2 * iw.2⟩)

/-- The contribution records for one company key. -/
def companyRecords (pf : List (Instrument × ℚ)) (c : String) : List PosRec :=
  ((company_positions pf).filter fun p => p.1 == c).map fun p => p.2

/-- Sum of the `portfolio_weight` fields over all contribution records
whose source is the given instrument symbol. -/
def sourceContribution (pf : List (Instrument × ℚ)) (s : String) : ℚ :=
  (((company_positions pf).filter fun p => p.2.source == s).map
    fun p => p.2.portfolio_weight).sum

/-- Total of a fund's holdings `pct` column (1 for a plain company). -/
def pctTotal (inst : Instrument) : ℚ :=
  match inst.holdings with
  | none => 1
  | some rows => (rows.map fun r => r.2).sum

theorem sourceContribution_append (l1 l2 : List (Instrument × ℚ)) (s : String) :
    sourceContribution (l1 ++ l2) s =
      sourceContribution l1 s + sourceContribution l2 s := by
  unfold sourceContribution company_positions
  rw [List.flatMap_append, List.filter_append, List.map_append, List.sum_append]

theorem sourceContribution_single (inst : Instrument) (w : ℚ) :
    sourceContribution [(inst, w)] inst.symbol = w * pctTotal inst := by
  unfold sourceContribution company_positions pctTotal
  cases hh : inst.holdings with
  | none =>
    rw [List.flatMap_cons, hh]
    simp [List.filter, List.sum]
  | some rows =>
    rw [List.flatMap_cons, hh]
    simp only [List.flatMap_nil, List.append_nil]
    rw [List.filter_map, List.map_map]
    have hall : (rows.filter ((fun p : String × PosRec => p.2.source == inst.symbol) ∘
        fun r => (r.1, (⟨inst.symbol, r.2, r.2 * w⟩ : PosRec)))) = rows := by
      rw [List.filter_eq_self]
      intro r _
      simp
    rw [hall]
    have : ((fun p : String × PosRec => p.2.portfolio_weight) ∘
        fun r : String × ℚ => (r.1, (⟨inst.symbol, r.2, r.2 * w⟩ : PosRec))) =
        fun r : String × ℚ => r.2 * w := rfl
    rw [this, List.sum_map_mul_right]
    ring

theorem sourceContribution_absent (pf : List (Instrument × ℚ)) (s : String)
    (h : ∀ q ∈ pf, q.1.symbol ≠ s) : sourceContribution pf s = 0 := by
  induction pf with
  | nil => rfl
  | cons iw rest ih =>
    have hstep : sourceContribution (iw :: rest) s =
        sourceContribution [iw] s + sourceContribution rest s := by
      have := sourceContribution_append [iw] rest s
      simpa using this
    rw [hstep, ih fun q hq => h q (List.mem_cons_of_mem iw hq)]
    have hs : iw.1.symbol ≠ s := h iw (List.mem_cons_self iw rest)
    have hone : sourceContribution [iw] s = 0 := by
      unfold sourceContribution company_positions
      cases hh : iw.1.holdings with
      | none =>
        rw [List.flatMap_cons, hh]
        simp [List.filter, beq_eq_false_iff_ne.mpr hs]
      | some rows =>
        rw [List.flatMap_cons, hh]
        simp only [List.flatMap_nil, List.append_nil]
        rw [List.filter_map]
        have : (rows.filter ((fun p : String × PosRec => p.2.source == s) ∘
            fun r => (r.1, (⟨iw.1.symbol, r.2, r.2 * iw.2⟩ : PosRec)))) = [] := by
          rw [List.filter_eq_nil_iff]
          intro r _
          simp [hs]
        rw [this]
        rfl
    rw [hone]
    ring

/-- C5, corrected part: a single-instrument portfolio holding the fund
VTI at weight 1 whose holdings table lists one row with pct 1/2 yields a
total portfolio_weight contribution of 1/2 for source VTI, not the
instrument's weight 1 — the invariant fails when the pct column does not
sum to 1. -/
theorem company_positions_weight_cex :
    sourceContribution
      [({ symbol := ("VTI"), holdings := some [(("AAPL"), 1/2)] }, 1)] ("VTI") =
      1/2 ∧
    ((1 : ℚ)/2 ≠ 1) := by
  constructor
  · norm_num [sourceContribution, company_positions, List.filter, List.sum]
  · norm_num

/-- C5 (amended): for an instrument whose symbol is unique in the
portfolio, the sum of `portfolio_weight` over its contribution records
equals its portfolio weight times the sum of its holdings' pct column
(times 1 when it has no holdings table); it equals the weight itself
exactly when that pct column sums to 1. -/
theorem sourceContribution_eq (l1 l2 : List (Instrument × ℚ))
    (inst : Instrument) (w : ℚ)
    (huniq : ∀ q ∈ l1 ++ l2, q.1.symbol ≠ inst.symbol) :
    sourceContribution (l1 ++ (inst, w) :: l2) inst.symbol = w * pctTotal inst ∧
    (pctTotal inst = 1 →
      sourceContribution (l1 ++ (inst, w) :: l2) inst.symbol = w) := by
  have hmain : sourceContribution (l1 ++ (inst, w) :: l2) inst.symbol =
      w * pctTotal inst := by
    have hsplit : l1 ++ (inst, w) :: l2 = l1 ++ ([(inst, w)] ++ l2) := by simp
    rw [hsplit, sourceContribution_append, sourceContribution_append]
    rw [sourceContribution_absent l1 inst.symbol
      (fun q hq => huniq q (List.mem_append_left l2 hq))]
    rw [sourceContribution_absent l2 inst.symbol
      (fun q hq => huniq q (List.mem_append_right l1 hq))]
    rw [sourceContribution_single]
    ring
  exact ⟨hmain, fun h1 => by rw [hmain, h1, mul_one]⟩

/-- Witness for `sourceContribution_eq`: a fund at weight 1/3 whose pct
column sums to 3/4 contributes 1/4 in total. -/
theorem sourceContribution_eq_witness :
    sourceContribution
      [({ symbol := ("VGT"), holdings := some [(("A"), 1/4), (("B"), 1/2)] }, 1/3)]
      ("VGT") = (1 : ℚ)/3 * (3/4) := by
  have h := sourceContribution_eq []
    [] { symbol := ("VGT"), holdings := some [(("A"), 1/4), (("B"), 1/2)] } (1/3)
    (by intro q hq; cases hq)
  have := h.1
  rw [show ([] : List (Instrument × ℚ)) ++
    ({ symbol := ("VGT"), holdings := some [(("A"), 1/4), (("B"), 1/2)] }, (1 : ℚ)/3) :: [] =
    [({ symbol := ("VGT"), holdings := some [(("A"), 1/4), (("B"), 1/2)] }, (1 : ℚ)/3)] from rfl] at this
  rw [this]
  norm_num [pctTotal]

/-- `Portfolio.__init__` weight handling (data.py lines 134-144): omitted
weights default to `1/N` each (`ZeroDivisionError` for zero tickers); an
explicit list must match the ticker count and sum exactly to 1.0 (exact
float comparison in the source), else `ValueError`; nothing else —
in particular no sign — is validated. -/
def portfolio_init_weights (tickers : List String)
    (weights : Option (List ℚ)) : Except PyExc (List ℚ) :=
  match weights with
  | none =>
    if tickers.length = 0 then .error .zeroDivisionError
    else .ok (List.replicate tickers.length (1 / (tickers.length : ℚ)))
  | some ws =>
    if ws.length ≠ tickers.length then .error .valueError
    else if ws.sum ≠ 1 then .error .valueError
    else .ok ws

/-- C6, corrected part: the explicit weights `[2, -1]` for two tickers are
accepted (their sum is exactly 1) although one of them is negative — the
constructor does not validate non-negativity. -/
theorem portfolio_negative_weight_cex :
    portfolio_init_weights [("A"), ("B")] (some [2, -1]) = .ok [2, -1] ∧
    ((-1 : ℚ) < 0) := by
  have hred : portfolio_init_weights [("A"), ("B")] (some [2, -1]) =
      (if ([2, -1] : List ℚ).length ≠ 2 then .error .valueError
       else if ([2, -1] : List ℚ).sum ≠ 1 then .error .valueError
       else .ok [2, -1]) := rfl
  constructor
  · rw [hred, if_neg (by norm_num), if_neg (by norm_num)]
  · norm_num

/-- C6 (amended): constructing a `Portfolio` with an explicit weights
list succeeds (returning those weights) if and only if the list has
exactly one weight per ticker and the weights sum to exactly 1.0;
non-negativity is not checked.  With weights omitted and at least one
ticker, the portfolio is equal-weighted at `1/N`. -/
theorem portfolio_init_weights_spec (tickers : List String) (ws : List ℚ) :
    (portfolio_init_weights tickers (some ws) = .ok ws ↔
      ws.length = tickers.length ∧ ws.sum = 1) ∧
    (tickers.length ≠ 0 →
      portfolio_init_weights tickers none =
        .ok (List.replicate tickers.length (1 / (tickers.length : ℚ)))) := by
  have hsome : portfolio_init_weights tickers (some ws) =
      (if ws.length ≠ tickers.length then .error .valueError
       else if ws.sum ≠ 1 then .error .valueError else .ok ws) := rfl
  have hnone : portfolio_init_weights tickers none =
      (if tickers.length = 0 then .error .zeroDivisionError
       else .ok (List.replicate tickers.length (1 / (tickers.length : ℚ)))) := rfl
  constructor
  · rw [hsome]
    constructor
    · intro h
      by_cases h1 : ws.length ≠ tickers.length
      · rw [if_pos h1] at h; cases h
      · rw [if_neg h1] at h
        by_cases h2 : ws.sum ≠ 1
        · rw [if_pos h2] at h; cases h
        · exact ⟨Decidable.not_not.mp h1, Decidable.not_not.mp h2⟩
    · intro ⟨h1, h2⟩
      rw [if_neg (Decidable.not_not.mpr h1), if_neg (Decidable.not_not.mpr h2)]
  · intro h0
    rw [hnone, if_neg h0]

/-- Witness for `portfolio_init_weights_spec` on two tickers with explicit
weights `[1/2, 1/2]` and with weights omitted. -/
theorem portfolio_init_weights_spec_witness :
    portfolio_init_weights [("A"), ("B")] (some [1/2, 1/2]) = .ok [1/2, 1/2] ∧
    portfolio_init_weights [("A"), ("B")] none =
      .ok (List.replicate 2 (1 / (2 : ℚ))) := by
  have h := portfolio_init_weights_spec [("A"), ("B")] [1/2, 1/2]
  constructor
  · exact h.1.mpr (by constructor <;> norm_num)
  · exact h.2 (by norm_num)

/-- The distinct sources holding a company (`held_by = {s['source'] ...}`,
data.py line 260), as a deduplicated list. -/
def heldBySources (pf : List (Instrument × ℚ)) (c : String) : List String :=
  ((companyRecords pf c).map fun r => r.source).dedup

/-- Membership test of `Portfolio.duplicate_positions` (data.py lines
249-266): a company key is in the returned dict iff its set of sources
does not have size one (`if len(held_by) == 1: continue`) and some
`source_weight` meets the threshold (`any(percent >= thres ...)`). -/
def duplicate_positions_mem (pf : List (Instrument × ℚ)) (thres : ℚ)
    (c : String) : Bool :=
  if (heldBySources pf c).length = 1 then false
  else (companyRecords pf c).any fun r => decide (thres ≤ r.source_weight)

theorem one_lt_dedup_length_iff {l : List String} :
    1 < l.dedup.length ↔ ∃ a ∈ l, ∃ b ∈ l, a ≠ b := by
  constructor
  · intro h
    cases hd : l.dedup with
    | nil => rw [hd] at h; simp at h
    | cons x rest =>
      cases rest with
      | nil => rw [hd] at h; simp at h
      | cons y rest2 =>
        have hx : x ∈ l.dedup := hd ▸ List.mem_cons_self x (y :: rest2)
        have hy : y ∈ l.dedup := hd ▸ List.mem_cons_of_mem x (List.mem_cons_self y rest2)
        have hnd := List.nodup_dedup l
        rw [hd] at hnd
        have hne : x ≠ y := List.rel_of_pairwise_cons hnd (List.mem_cons_self y rest2)
        exact ⟨x, List.mem_dedup.mp hx, y, List.mem_dedup.mp hy, hne⟩
  · rintro ⟨a, ha, b, hb, hne⟩
    by_contra hle
    push_neg at hle
    have ha' : a ∈ l.dedup := List.mem_dedup.mpr ha
    have hb' : b ∈ l.dedup := List.mem_dedup.mpr hb
    cases hd : l.dedup with
    | nil => rw [hd] at ha'; cases ha'
    | cons x rest =>
      cases rest with
      | cons y rest2 => rw [hd] at hle; simp at hle
      | nil =>
        rw [hd] at ha' hb'
        have h1 : a = x := by
          rcases List.mem_cons.mp ha' with h | h
          · exact h
          · cases h
        have h2 : b = x := by
          rcases List.mem_cons.mp hb' with h | h
          · exact h
          · cases h
        exact hne (h1.trans h2.symm)

theorem exists_distinct_source_iff (records : List PosRec) :
    (∃ r1 ∈ records, ∃ r2 ∈ records, r1.source ≠ r2.source) ↔
      1 < ((records.map fun r => r.source).dedup).length := by
  rw [one_lt_dedup_length_iff]
  constructor
  · rintro ⟨r1, h1, r2, h2, hne⟩
    exact ⟨r1.source, List.mem_map_of_mem _ h1, r2.source,
      List.mem_map_of_mem _ h2, hne⟩
  · rintro ⟨a, ha, b, hb, hne⟩
    obtain ⟨r1, hr1, rfl⟩ := List.mem_map.mp ha
    obtain ⟨r2, hr2, rfl⟩ := List.mem_map.mp hb
    exact ⟨r1, hr1, r2, hr2, hne⟩

/-- The two-fund example of the claim: company X is 21% of fund VGT and
5.8% of fund VTI; company MU is 0.77% of VGT and 0.22% of VTI. -/
def duplicateExample : List (Instrument × ℚ) :=
  [({ symbol := ("VGT"),
      holdings := some [(("X"), 21/100), (("MU"), 77/10000)] }, 1/2),
   ({ symbol := ("VTI"),
      holdings := some [(("X"), 58/1000), (("MU"), 22/10000)] }, 1/2)]

/-- C10: `duplicate_positions(threshold)` contains a company iff its
records come from more than one distinct source and at least one
`source_weight` meets the threshold; with threshold 0.01, company X held
at 21% and 5.8% of two funds is flagged while company MU at 0.77% and
0.22% of the same funds is not. -/
theorem duplicate_positions_characterization :
    (∀ (pf : List (Instrument × ℚ)) (thres : ℚ) (c : String),
      duplicate_positions_mem pf thres c = true ↔
        ((∃ r1 ∈ companyRecords pf c, ∃ r2 ∈ companyRecords pf c,
            r1.source ≠ r2.source) ∧
          ∃ r ∈ companyRecords pf c, thres ≤ r.source_weight)) ∧
    duplicate_positions_mem duplicateExample (1/100) ("X") = true ∧
    duplicate_positions_mem duplicateExample (1/100) ("MU") = false := by
  refine ⟨?_, ?_, ?_⟩
  · intro pf thres c
    have hsrc := exists_distinct_source_iff (companyRecords pf c)
    unfold duplicate_positions_mem heldBySources
    by_cases hlen : ((companyRecords pf c).map fun r => r.source).dedup.length = 1
    · rw [if_pos hlen]
      simp only [Bool.false_eq_true, false_iff]
      rintro ⟨hdist, -⟩
      have := hsrc.mp hdist
      omega
    · rw [if_neg hlen]
      rcases Nat.lt_or_ge 1 (((companyRecords pf c).map fun r => r.source).dedup.length)
        with hgt | hle
      · have hdist := hsrc.mpr hgt
        simp only [List.any_eq_true, decide_eq_true_eq]
        exact ⟨fun hany => ⟨hdist, hany⟩, fun h => h.2⟩
      · have h0 : (((companyRecords pf c).map fun r => r.source).dedup).length = 0 := by
          omega
        have hmapnil : ((companyRecords pf c).map fun r => r.source) = [] :=
          (List.dedup_eq_nil _).mp (List.length_eq_zero.mp h0)
        have hrec : companyRecords pf c = [] := by
          cases hc : companyRecords pf c with
          | nil => rfl
          | cons r t => rw [hc] at hmapnil; cases hmapnil
        rw [hrec]
        simp
  · norm_num [duplicate_positions_mem, heldBySources, companyRecords,
      company_positions, duplicateExample,
      show (("MU" : String) == ("X" : String)) = false from rfl,
      show (("X" : String) == ("MU" : String)) = false from rfl,
      show (("X" : String) == ("X" : String)) = true from rfl,
      show (("MU" : String) == ("MU" : String)) = true from rfl]
    decide
  · norm_num [duplicate_positions_mem, heldBySources, companyRecords,
      company_positions, duplicateExample,
      show (("MU" : String) == ("X" : String)) = false from rfl,
      show (("X" : String) == ("MU" : String)) = false from rfl,
      show (("X" : String) == ("X" : String)) = true from rfl,
      show (("MU" : String) == ("MU" : String)) = true from rfl]

/-! ### Metric dispatch (`Ticker.metric`) -/

/-- The single-underscore-prefixed attributes of the `Ticker` class, i.e.
its private methods in data.py: what `getattr(self, '_' + metric_type)`
resolves for any metric type that does not itself begin with an
underscore (the class's other attributes and methods do not start with an
underscore, and `object` contributes only double-underscore dunder
attributes). -/
def tickerPrivateAttrs : List (List Char) :=
  [("_force_float").toList, ("_nearest").toList, ("_rolling").toList,
    ("_sort_dates").toList, ("_trailing").toList]

/-- The parsing/dispatch phase of `Ticker.metric` (data.py lines 436-460):
empty data raises `TickerDataError`; `metric_type, period, *options =
metric_name.split('/')` raises `ValueError` when the split yields fewer
than two parts; `getattr(self, '_' + metric_type)` raises
`NotImplementedError` when no such attribute exists; otherwise the
resolved method is invoked with the period (execution of the method
itself is beyond this phase).  For a metric type that itself begins with
an underscore, `'_' + metric_type` is a double-underscore name that can
resolve attributes inherited from `object` (e.g. `'_init__'` reaches
`__init__`); which of those names exist depends on the Python runtime's
attribute set, so the model leaves such dispatches unspecified
(`none`). -/
def metric_dispatch_parts :
    List (List Char) → Option (Except PyExc (List Char × List Char × List (List Char)))
  | mt :: period :: options =>
    if mt.head? = some '_' then none
    else if tickerPrivateAttrs.contains ('_' :: mt) then
      some (.ok (mt, period, options))
    else some (.error .notImplementedError)
  | _ => some (.error .valueError)

/-- `Ticker.metric` dispatch on the whole metric name: the empty-data
check followed by `metric_dispatch_parts` on the slash-split pieces. -/
def metric_dispatch (dataLen : ℕ) (metric_name : List Char) :
    Option (Except PyExc (List Char × List Char × List (List Char))) :=
  if dataLen = 0 then some (.error .tickerDataError)
  else metric_dispatch_parts (pySplit '/' metric_name)

/-- C7, corrected part: with non-empty data, the metric name
`nearest/2020-01-01` has metric_type `nearest`, outside
{rolling, trailing}, yet dispatch succeeds (to `Ticker._nearest`) instead
of failing with `UnsupportedMetricError`, because `getattr` resolves any
underscore-prefixed method. -/
theorem metric_dispatch_nearest_cex :
    metric_dispatch 5 (("nearest/2020-01-01").toList) =
      some (.ok (("nearest").toList, ("2020-01-01").toList, [])) ∧
    ("nearest").toList ≠ ("rolling").toList ∧
    ("nearest").toList ≠ ("trailing").toList := by
  refine ⟨?_, by decide, by decide⟩
  decide

/-- C7 (amended): with non-empty data, a metric name splitting into fewer
than two slash-separated parts fails with `InvalidMetricNameError`
(`ValueError`); for a metric type that does not begin with an underscore,
dispatch succeeds exactly when `'_' + metric_type` is an attribute of the
Ticker class — the set {force_float, nearest, rolling, sort_dates,
trailing}, strictly larger than {rolling, trailing} — and fails with
`UnsupportedMetricError` (`NotImplementedError`) exactly for metric types
outside it.  Metric types beginning with an underscore can resolve
attributes inherited from `object` (e.g. `'_init__'` reaches `__init__`)
and are not covered by this characterization. -/
theorem metric_dispatch_spec (dataLen : ℕ) (name : List Char)
    (hdata : dataLen ≠ 0) :
    ((pySplit '/' name).length < 2 →
      metric_dispatch dataLen name = some (.error .valueError)) ∧
    (∀ mt period options, pySplit '/' name = mt :: period :: options →
      mt.head? ≠ some '_' →
      (tickerPrivateAttrs.contains ('_' :: mt) = true →
        metric_dispatch dataLen name = some (.ok (mt, period, options))) ∧
      (tickerPrivateAttrs.contains ('_' :: mt) = false →
        metric_dispatch dataLen name = some (.error .notImplementedError))) := by
  constructor
  · intro hlen
    unfold metric_dispatch
    rw [if_neg hdata]
    cases hsp : pySplit '/' name with
    | nil => rfl
    | cons m rest =>
      cases rest with
      | nil => rfl
      | cons p o =>
        rw [hsp] at hlen
        simp only [List.length_cons] at hlen
        omega
  · intro mt period options hsp hund
    constructor
    · intro hattr
      unfold metric_dispatch
      rw [if_neg hdata, hsp]
      show (if mt.head? = some '_' then none
        else if tickerPrivateAttrs.contains ('_' :: mt) then
          some (Except.ok (mt, period, options))
        else some (Except.error PyExc.notImplementedError)) =
        some (Except.ok (mt, period, options))
      rw [if_neg hund]
      simp only [hattr, if_true]
    · intro hattr
      unfold metric_dispatch
      rw [if_neg hdata, hsp]
      show (if mt.head? = some '_' then none
        else if tickerPrivateAttrs.contains ('_' :: mt) then
          some (Except.ok (mt, period, options))
        else some (Except.error PyExc.notImplementedError)) =
        some (Except.error PyExc.notImplementedError)
      rw [if_neg hund]
      simp only [hattr, Bool.false_eq_true, if_false]

/-- Witness for `metric_dispatch_spec`: a known metric name dispatches,
an unknown (non-underscore) metric type raises, and a one-part name is
malformed. -/
theorem metric_dispatch_spec_witness :
    metric_dispatch 5 (("rolling/1-year/a").toList) =
      some (.ok (("rolling").toList, ("1-year").toList, [("a").toList])) ∧
    metric_dispatch 5 (("foo/1-year").toList) =
      some (.error .notImplementedError) ∧
    metric_dispatch 5 (("rolling").toList) = some (.error .valueError) := by
  have h1 := (metric_dispatch_spec 5 (("rolling/1-year/a").toList)
    (by decide)).2 (("rolling").toList) (("1-year").toList) [("a").toList]
    (by decide) (by decide)
  have h2 := (metric_dispatch_spec 5 (("foo/1-year").toList)
    (by decide)).2 (("foo").toList) (("1-year").toList) []
    (by decide) (by decide)
  have h3 := (metric_dispatch_spec 5 (("rolling").toList) (by decide)).1
    (by decide)
  exact ⟨h1.1 (by decide), h2.2 (by decide), h3⟩
